import Mathlib

/-!
# SubDecode: the fetch / normalize / diff / persist pipeline

A shallow embedding of `src/src/SubDecode.go` and proofs about it.

Go strings are byte sequences; they are modelled as lists of natural
numbers (each byte a number below 256).  The functions of the Go standard
library that the program calls (`strings.Split`, `strings.Join`,
`strings.TrimSpace`, `strings.TrimPrefix`, `strings.ReplaceAll`,
`strings.NewReplacer`, `encoding/base64`) are modelled from their library
source; the functions of the program itself (`normalize`, `loadExisting`,
`diff`, `decodeBase64`, `sanitizeFileName`, `main`) are translated from the
repository source, loop by loop.
-/

set_option autoImplicit false

namespace SubDecode

/-! ## Go strings -/

/-- A Go string: a sequence of bytes. -/
abbrev GoString := List Nat

/-- UTF-8 encoding of one code point (the encoding Go uses for string
literals and for runes). -/
def utf8EncodeRune (c : Nat) : GoString :=
  if c < 0x80 then [c]
  else if c < 0x800 then [0xC0 + c / 64, 0x80 + c % 64]
  else if c < 0x10000 then [0xE0 + c / 4096, 0x80 + c / 64 % 64, 0x80 + c % 64]
  else [0xF0 + c / 262144, 0x80 + c / 4096 % 64, 0x80 + c / 64 % 64, 0x80 + c % 64]

/-- The bytes of a string literal. -/
def str (s : String) : GoString :=
  (s.toList.map (fun ch => utf8EncodeRune ch.toNat)).flatten

/-- Every element is a byte. -/
def IsBytes (s : GoString) : Prop := ∀ b ∈ s, b < 256

/-! ## Library: package strings -/

/-- Model of `strings.Split(s, sep)` for a separator of one byte: the
pieces between the occurrences of the separator, one more piece than there
are separators (so the empty string gives one empty piece). -/
def Split (s : GoString) (sep : Nat) : List GoString :=
  match s with
  | [] => [[]]
  | c :: cs =>
    if c = sep then [] :: Split cs sep
    else
      match Split cs sep with
      | [] => [[c]]
      | p :: ps => (c :: p) :: ps

/-- Model of `strings.Join(elems, sep)`. -/
def Join (elems : List GoString) (sep : GoString) : GoString :=
  match elems with
  | [] => []
  | [a] => a
  | a :: b :: rest => a ++ sep ++ Join (b :: rest) sep

/-- The code points for which `unicode.IsSpace` holds: tab, line feed,
vertical tab, form feed, carriage return, space, U+0085, U+00A0 and the
other code points with the White_Space property. -/
def spaceRunes : List Nat :=
  [0x09, 0x0A, 0x0B, 0x0C, 0x0D, 0x20, 0x85, 0xA0, 0x1680,
   0x2000, 0x2001, 0x2002, 0x2003, 0x2004, 0x2005, 0x2006, 0x2007, 0x2008,
   0x2009, 0x200A, 0x2028, 0x2029, 0x202F, 0x205F, 0x3000]

/-- The byte sequences that decode to a white space rune. -/
def spaceEncodings : List GoString := spaceRunes.map utf8EncodeRune

/-- Removes from the front of `s`, as long as there is one, an element of
`encs` that `s` starts with.  At most `fuel` removals. -/
def trimLoop (encs : List GoString) : Nat → GoString → GoString
  | 0, s => s
  | fuel + 1, s =>
    match encs.find? (fun e => e.isPrefixOf s) with
    | some e => trimLoop encs fuel (s.drop e.length)
    | none => s

/-- Model of `strings.TrimLeftFunc(s, unicode.IsSpace)`: the runes are
decoded from the front and dropped while they are white space.  A byte
sequence that is not valid UTF-8 decodes to U+FFFD, which is not white
space, so the loop drops exactly the leading white space encodings.  The
length of `s` bounds the number of removals. -/
def TrimLeftSpace (s : GoString) : GoString :=
  trimLoop spaceEncodings s.length s

/-- Model of `strings.TrimRightFunc(s, unicode.IsSpace)`: the same from the
end of the string (`utf8.DecodeLastRuneInString`). -/
def TrimRightSpace (s : GoString) : GoString :=
  (trimLoop (spaceEncodings.map List.reverse) s.length s.reverse).reverse

/-- Model of `strings.TrimSpace(s)`.  The library function has a fast path
for ASCII and otherwise is `TrimRightFunc(TrimLeftFunc(s, unicode.IsSpace),
unicode.IsSpace)`; both paths compute this. -/
def TrimSpace (s : GoString) : GoString :=
  TrimRightSpace (TrimLeftSpace s)

/-! ## normalize, loadExisting, diff -/

/-- The loop of `normalize`: `seen` holds the keys of the map `seen` (every
key stored has the value `true`), `out` is the slice built so far. -/
def normalizeLoop : List GoString → List GoString → List GoString → List GoString
  | [], _, out => out
  | l :: lines, seen, out =>
    let l := TrimSpace l
    if l = [] ∨ l ∈ seen then normalizeLoop lines seen out
    else normalizeLoop lines (l :: seen) (out ++ [l])

/-- Embedding of `normalize` (SubDecode.go, lines 193-207). -/
def normalize (s : GoString) : List GoString :=
  normalizeLoop (Split s 0x0A) [] []

/-- Embedding of `loadExisting` (lines 209-215).  The argument is the result
of `os.ReadFile(path)`: `none` when it returned an error. -/
def loadExisting (file : Option GoString) : List GoString :=
  match file with
  | none => []
  | some b => normalize b

/-- Embedding of `diff` (lines 217-240).  The maps `oldMap` and `newMap`
are modelled by the lists of their keys (every key stored has the value
`true`, and a lookup of a missing key gives `false`). -/
def diff (old new : List GoString) : Nat × Nat × Nat :=
  let oldMap : List GoString := old.foldl (fun m o => o :: m) []
  let st : List GoString × Nat × Nat :=
    new.foldl
      (fun st n =>
        if n ∈ oldMap then (n :: st.1, st.2.1, st.2.2 + 1)
        else (n :: st.1, st.2.1 + 1, st.2.2))
      ([], 0, 0)
  let newMap := st.1
  let added := st.2.1
  let unchanged := st.2.2
  let removed := old.foldl (fun removed o => if o ∈ newMap then removed else removed + 1) 0
  (added, unchanged, removed)

/-! ## Library: package encoding/base64 -/

/-- An `Encoding`: the 64-character alphabet and the padding character
(`none` for `NoPadding`). -/
structure Encoding where
  encode : GoString
  padChar : Option Nat

/-- `base64.StdEncoding`. -/
def StdEncoding : Encoding :=
  ⟨str "ABCDEFGHIJKLMNOPQRSTUVWXYZabcdefghijklmnopqrstuvwxyz0123456789+/", some 0x3D⟩

/-- `base64.URLEncoding`. -/
def URLEncoding : Encoding :=
  ⟨str "ABCDEFGHIJKLMNOPQRSTUVWXYZabcdefghijklmnopqrstuvwxyz0123456789-_", some 0x3D⟩

/-- `base64.RawURLEncoding`. -/
def RawURLEncoding : Encoding :=
  ⟨str "ABCDEFGHIJKLMNOPQRSTUVWXYZabcdefghijklmnopqrstuvwxyz0123456789-_", none⟩

/-- `base64.RawStdEncoding`. -/
def RawStdEncoding : Encoding :=
  ⟨str "ABCDEFGHIJKLMNOPQRSTUVWXYZabcdefghijklmnopqrstuvwxyz0123456789+/", none⟩

/-- The padding an encoder appends after a final group of `n` characters. -/
def padding (enc : Encoding) (n : Nat) : GoString :=
  match enc.padChar with
  | some p => List.replicate n p
  | none => []

/-- Model of `(*Encoding).EncodeToString`: three source bytes give four
characters, a final block of one or two bytes gives two or three
characters and the padding. -/
def EncodeToString (enc : Encoding) : GoString → GoString
  | a :: b :: c :: rest =>
    let val := a <<< 16 ||| b <<< 8 ||| c
    [enc.encode.getD (val >>> 18 &&& 0x3F) 0, enc.encode.getD (val >>> 12 &&& 0x3F) 0,
     enc.encode.getD (val >>> 6 &&& 0x3F) 0, enc.encode.getD (val &&& 0x3F) 0]
      ++ EncodeToString enc rest
  | [a, b] =>
    let val := a <<< 16 ||| b <<< 8
    [enc.encode.getD (val >>> 18 &&& 0x3F) 0, enc.encode.getD (val >>> 12 &&& 0x3F) 0,
     enc.encode.getD (val >>> 6 &&& 0x3F) 0] ++ padding enc 1
  | [a] =>
    let val := a <<< 16
    [enc.encode.getD (val >>> 18 &&& 0x3F) 0, enc.encode.getD (val >>> 12 &&& 0x3F) 0]
      ++ padding enc 2
  | [] => []

/-- The table `enc.decodeMap`: the index of a character of the alphabet,
`none` (0xff in the library) for every other byte. -/
def decodeMap (enc : Encoding) (c : Nat) : Option Nat :=
  if enc.encode.indexOf c < enc.encode.length then some (enc.encode.indexOf c) else none

/-- The loops `for si < len(src) && (src[si] == '\n' || src[si] == '\r')`. -/
def skipNewlines : GoString → GoString
  | [] => []
  | c :: rest => if c = 0x0A ∨ c = 0x0D then skipNewlines rest else c :: rest

/-- The end of `decodeQuantum`: the digits read (missing ones count as 0)
are packed into 24 bits, of which one byte fewer than there are digits is
written out. -/
def quantumBytes (dbuf : List Nat) : GoString :=
  let val := dbuf.getD 0 0 <<< 18 ||| dbuf.getD 1 0 <<< 12 ||| dbuf.getD 2 0 <<< 6 ||| dbuf.getD 3 0
  [val >>> 16 % 256, val >>> 8 % 256, val >>> 0 % 256].take (dbuf.length - 1)

/-- Model of `(*Encoding).Decode`, non-strict: the loop of `Decode` over
`decodeQuantum`, written as one pass over the input.  `dbuf` holds the
digits of the quantum being read (its length is `j`).  The result is `none`
where the library returns a `CorruptInputError`.  (The library's fast paths
for 8 and 4 characters at a time compute the same as `decodeQuantum`.) -/
def decodeLoop (enc : Encoding) : List Nat → GoString → Option GoString
  | dbuf, [] =>
    if dbuf.length = 0 then some []
    else if dbuf.length = 1 ∨ enc.padChar ≠ none then none
    else some (quantumBytes dbuf)
  | dbuf, c :: rest =>
    match decodeMap enc c with
    | some out =>
      if dbuf.length = 3 then
        (decodeLoop enc [] rest).map (fun tl => quantumBytes (dbuf ++ [out]) ++ tl)
      else decodeLoop enc (dbuf ++ [out]) rest
    | none =>
      if c = 0x0A ∨ c = 0x0D then decodeLoop enc dbuf rest
      else if some c ≠ enc.padChar then none
      else if dbuf.length < 2 then none
      else
        let afterPad : Option GoString :=
          if dbuf.length = 2 then
            match skipNewlines rest with
            | [] => none
            | c2 :: rest2 => if some c2 ≠ enc.padChar then none else some rest2
          else some rest
        match afterPad with
        | none => none
        | some tl => if skipNewlines tl = [] then some (quantumBytes dbuf) else none

/-- Model of `(*Encoding).DecodeString`; `none` stands for a non-nil error
(the bytes the library returns next to an error are not used by the
program). -/
def DecodeString (enc : Encoding) (s : GoString) : Option GoString :=
  decodeLoop enc [] s

/-! ## decodeBase64 -/

/-- Model of `strings.ReplaceAll(s, old, new)` for `old` and `new` of one
byte each. -/
def ReplaceAll (s : GoString) (old new : Nat) : GoString :=
  s.map (fun c => if c = old then new else c)

/-- The loop `for len(s)%4 != 0 { s += "=" }`, at most `fuel` rounds. -/
def padLoop : Nat → GoString → GoString
  | 0, s => s
  | fuel + 1, s => if s.length % 4 ≠ 0 then padLoop fuel (s ++ [0x3D]) else s

/-- Embedding of `decodeBase64` (lines 182-191).  The padding loop runs at
most three times (`padLoop_length`).  `none` stands for `err != nil`. -/
def decodeBase64 (s : GoString) : Option GoString :=
  let s := TrimSpace s
  let s := ReplaceAll s 0x2D 0x2B
  let s := ReplaceAll s 0x5F 0x2F
  let s := padLoop 3 s
  DecodeString StdEncoding s

/-! ## sanitizeFileName -/

/-- Model of `strings.TrimPrefix`. -/
def TrimPrefix (s p : GoString) : GoString :=
  if p.isPrefixOf s then s.drop p.length else s

/-- The pairs given to `strings.NewReplacer` in `sanitizeFileName`: each
of `/ \ : * ? " < > | & =` is replaced by `_`. -/
def replacerPairs : List (Nat × Nat) :=
  [(0x2F, 0x5F), (0x5C, 0x5F), (0x3A, 0x5F), (0x2A, 0x5F), (0x3F, 0x5F), (0x22, 0x5F),
   (0x3C, 0x5F), (0x3E, 0x5F), (0x7C, 0x5F), (0x26, 0x5F), (0x3D, 0x5F)]

/-- Model of `(*strings.Replacer).Replace` for pairs of one-byte strings:
every byte is replaced by the new byte of the first pair whose old byte it
is, and kept when there is none. -/
def Replace (pairs : List (Nat × Nat)) (s : GoString) : GoString :=
  s.map (fun c =>
    match pairs.find? (fun p => p.1 = c) with
    | some p => p.2
    | none => c)

/-- Embedding of `sanitizeFileName` (lines 261-278). -/
def sanitizeFileName (link : GoString) : GoString :=
  let link := TrimPrefix link (str "http://")
  let link := TrimPrefix link (str "https://")
  Replace replacerPairs link

/-! ## main -/

/-- Embedding of `isURL` (lines 280-283).  The argument is the result of
`url.Parse(str)`: `none` for an error, otherwise the scheme and the host
of the parsed URL. -/
def isURL (parsed : Option (GoString × GoString)) : Bool :=
  match parsed with
  | none => false
  | some (scheme, host) => scheme ≠ [] ∧ host ≠ []

/-- Embedding of `fileExists` (lines 285-288).  The argument tells whether
`os.Stat(path)` returned an error. -/
def fileExists (statErr : Bool) : Bool :=
  statErr = false

/-- What the environment answers to the calls `main` makes during one
run. -/
structure World where
  /-- The value of `*help` after `flag.Parse()`. -/
  help : Bool
  /-- The value of `len(os.Args)`. -/
  numArgs : Nat
  /-- The value of `*link`. -/
  link : GoString
  /-- The value of `*proxy`. -/
  proxy : GoString
  /-- The result of `url.Parse`, see `isURL`. -/
  parse : GoString → Option (GoString × GoString)
  /-- Whether `http.NewRequest` returns an error. -/
  requestErr : Bool
  /-- Whether `client.Do(req)` returns an error. -/
  doErr : Bool
  /-- The value of `resp.StatusCode`. -/
  statusCode : Nat
  /-- The bytes `io.ReadAll(resp.Body)` returns. -/
  body : GoString
  /-- Whether `io.ReadAll(resp.Body)` returns an error next to those bytes. -/
  bodyErr : Bool
  /-- Whether `os.Stat` returns an error. -/
  statErr : GoString → Bool
  /-- The result of `os.ReadFile`: `none` for an error. -/
  readFile : GoString → Option GoString
  /-- Whether `os.WriteFile` returns an error. -/
  writeErr : Bool
  /-- What a later read of the file gives when `os.WriteFile` failed. -/
  afterFailedWrite : Option GoString
  /-- Whether `clipboard.Init()` returns an error. -/
  clipboardErr : Bool

/-- Embedding of `buildClient` (lines 161-180), as far as its error goes:
the proxy is parsed only when it is not empty. -/
def buildClientErr (w : World) : Bool :=
  w.proxy ≠ [] ∧ w.parse w.proxy = none

/-- The line `main` prints about the kind of source it read. -/
inductive Detected
  | plainURL
  | base64URL
  | localFile
  deriving DecidableEq, Repr

/-- The way a run ends, after the status line `main` prints last. -/
inductive Report
  | help
  | noLink
  | proxyError
  | invalidURL
  | netError
  | httpError (code : Nat)
  | readFileError
  | notFound
  | upToDate
  | writeError
  | updated (added unchanged removed : Nat)
  deriving DecidableEq, Repr

/-- What a run did: the report, the call of `os.WriteFile` (path and
content) if there was one, and the text put on the clipboard if any. -/
structure Result where
  report : Report
  write : Option (GoString × GoString)
  clipboard : Option GoString
  deriving DecidableEq, Repr

/-- Embedding of lines 52-108 of `main`: the acquisition of `newLines`.
The error of `io.ReadAll` is discarded by the program (`body, _ :=`), so
`bodyErr` is not consulted. -/
def acquire (w : World) : Except Report (Detected × List GoString) :=
  if isURL (w.parse w.link) then
    if buildClientErr w then .error .proxyError
    else if w.requestErr then .error .invalidURL
    else if w.doErr then .error .netError
    else if w.statusCode ≠ 200 then .error (.httpError w.statusCode)
    else
      let content := w.body
      match decodeBase64 content with
      | none => .ok (.plainURL, normalize content)
      | some decoded => .ok (.base64URL, normalize decoded)
  else if fileExists (w.statErr w.link) then
    match w.readFile w.link with
    | none => .error .readFileError
    | some content => .ok (.localFile, normalize content)
  else .error .notFound

/-- The path `filepath.Join(outDir, filename+".txt")` of lines 110-114 (the
name holds no path separator, so the join is the concatenation). -/
def outFile (link : GoString) : GoString :=
  str "output/" ++ (sanitizeFileName link ++ str ".txt")

/-- Embedding of lines 110-139 of `main`: load the prior entries, diff,
and write unless nothing was added or removed. -/
def persist (w : World) (newLines : List GoString) : Result :=
  let oldLines := loadExisting (w.readFile (outFile w.link))
  let d := diff oldLines newLines
  let added := d.1
  let unchanged := d.2.1
  let removed := d.2.2
  if added = 0 ∧ removed = 0 then ⟨.upToDate, none, none⟩
  else
    let final := Join newLines (str "\n")
    if w.writeErr then ⟨.writeError, some (outFile w.link, final), none⟩
    else
      ⟨.updated added unchanged removed, some (outFile w.link, final),
        if w.clipboardErr then none else some final⟩

/-- Embedding of `main` (lines 27-140). -/
def main (w : World) : Result :=
  if w.help ∨ w.numArgs = 1 then ⟨.help, none, none⟩
  else if w.link = [] then ⟨.noLink, none, none⟩
  else
    match acquire w with
    | .error r => ⟨r, none, none⟩
    | .ok (_, newLines) => persist w newLines

/-- The result of reading a file after the run: a run that does not call
`os.WriteFile` leaves every file as it was, a successful call replaces the
content of the file written. -/
def filesAfter (w : World) (r : Result) (path : GoString) : Option GoString :=
  match r.write with
  | none => w.readFile path
  | some (p, content) =>
    if path = p then (if w.writeErr then w.afterFailedWrite else some content)
    else w.readFile path

/-! ## The specification, in its own words -/

/-- Keeps the first occurrence of each element, in the order of the first
occurrences: the head is kept and its copies are dropped from the
deduplicated tail. -/
def keepFirst : List GoString → List GoString
  | [] => []
  | x :: xs => x :: (keepFirst xs).filter (fun y => y ≠ x)

/-- The Normalizer as the specification words it: split into lines, trim
each line, drop the empty ones, keep first occurrences. -/
def normalizeSpec (s : GoString) : List GoString :=
  keepFirst (((Split s 0x0A).map TrimSpace).filter (fun l => l ≠ []))

/-! ## Auxiliary notions of the statements -/

/-- A byte that no white space rune contains: ASCII and not white space. -/
abbrev plainByte (c : Nat) : Prop :=
  c < 0x80 ∧ c ∉ [0x09, 0x0A, 0x0B, 0x0C, 0x0D, 0x20]

/-- The bytes that `sanitizeFileName` turns into `_`: the eleven characters
it replaces and `_` itself. -/
def placeholderBytes : List Nat :=
  [0x2F, 0x5C, 0x3A, 0x2A, 0x3F, 0x22, 0x3C, 0x3E, 0x7C, 0x26, 0x3D, 0x5F]

/-- The link after the two `strings.TrimPrefix` calls of
`sanitizeFileName`. -/
def stripScheme (link : GoString) : GoString :=
  TrimPrefix (TrimPrefix link (str "http://")) (str "https://")

/-! ## Example runs -/

/-- A run on a remote source: the link parses as a URL, the request is
answered with status 200, reading the response gives `body` (with an error
when `bodyErr` is set), and the artifact of the link holds `prior` (`none`
when there is no artifact). -/
def remoteWorld (body : GoString) (bodyErr : Bool) (prior : Option GoString) : World where
  help := false
  numArgs := 3
  link := str "http://h/s"
  proxy := []
  parse := fun _ => some (str "http", str "h")
  requestErr := false
  doErr := false
  statusCode := 200
  body := body
  bodyErr := bodyErr
  statErr := fun _ => true
  readFile := fun p => if p = outFile (str "http://h/s") then prior else none
  writeErr := false
  afterFailedWrite := none
  clipboardErr := true

/-- A run on a local file: the link has no scheme and no host, the file
exists and holds `content`, and the artifact of the link holds `prior`. -/
def fileWorld (content : GoString) (prior : Option GoString) : World where
  help := false
  numArgs := 3
  link := str "subs.txt"
  proxy := []
  parse := fun _ => some ([], [])
  requestErr := false
  doErr := false
  statusCode := 0
  body := []
  bodyErr := false
  statErr := fun p => p ≠ str "subs.txt"
  readFile := fun p =>
    if p = str "subs.txt" then some content
    else if p = outFile (str "subs.txt") then prior else none
  writeErr := false
  afterFailedWrite := none
  clipboardErr := true

/-! ## Split and Join -/

theorem Split_ne_nil (s : GoString) (sep : Nat) : Split s sep ≠ [] := by
  cases s with
  | nil => simp [Split]
  | cons c cs =>
    rw [Split]
    split_ifs
    · simp
    · cases Split cs sep <;> simp

theorem Split_of_not_mem (sep : Nat) (s : GoString) (h : sep ∉ s) : Split s sep = [s] := by
  induction s with
  | nil => simp [Split]
  | cons c cs ih =>
    simp only [List.mem_cons, not_or] at h
    rw [Split, if_neg (fun e => h.1 e.symm), ih h.2]

theorem Split_append_sep (sep : Nat) (a rest : GoString) (h : sep ∉ a) :
    Split (a ++ sep :: rest) sep = a :: Split rest sep := by
  induction a with
  | nil => simp [Split]
  | cons c cs ih =>
    simp only [List.mem_cons, not_or] at h
    rw [List.cons_append, Split, if_neg (fun e => h.1 e.symm), ih h.2]

theorem not_mem_of_mem_Split (sep : Nat) (s : GoString) :
    ∀ p ∈ Split s sep, sep ∉ p := by
  induction s with
  | nil => simp [Split]
  | cons c cs ih =>
    intro p hp
    rw [Split] at hp
    split_ifs at hp with hc
    · rcases List.mem_cons.1 hp with rfl | hp
      · simp
      · exact ih p hp
    · cases hs : Split cs sep with
      | nil => exact absurd hs (Split_ne_nil cs sep)
      | cons q qs =>
        rw [hs] at hp ih
        rcases List.mem_cons.1 hp with rfl | hp
        · have hq := ih q (List.mem_cons_self _ _)
          simp only [List.mem_cons, not_or]
          exact ⟨fun e => hc e.symm, hq⟩
        · exact ih p (List.mem_cons_of_mem _ hp)

theorem Split_Join (sep : Nat) (ps : List GoString) (hne : ps ≠ [])
    (h : ∀ p ∈ ps, sep ∉ p) : Split (Join ps [sep]) sep = ps := by
  induction ps with
  | nil => exact absurd rfl hne
  | cons a rest ih =>
    cases rest with
    | nil => simpa [Join] using Split_of_not_mem sep a (h a (List.mem_cons_self _ _))
    | cons b rest =>
      have hrest := ih (by simp) (fun p hp => h p (List.mem_cons_of_mem _ hp))
      rw [Join, List.append_assoc, List.singleton_append,
        Split_append_sep sep a _ (h a (List.mem_cons_self _ _)), hrest]

theorem Join_suffix (sep : GoString) (ps : List GoString) (hne : ps ≠ []) :
    ps.getLast hne <:+ Join ps sep := by
  induction ps with
  | nil => exact absurd rfl hne
  | cons a rest ih =>
    cases rest with
    | nil => simp [Join]
    | cons b rest =>
      rw [Join, List.getLast_cons (by simp)]
      exact (ih (by simp)).trans (List.suffix_append _ _)

/-! ## TrimSpace -/

theorem trimLoop_suffix (encs : List GoString) (n : Nat) (s : GoString) :
    trimLoop encs n s <:+ s := by
  induction n generalizing s with
  | zero => exact List.suffix_refl s
  | succ n ih =>
    rw [trimLoop]
    split
    · exact (ih _).trans (List.drop_suffix _ _)
    · exact List.suffix_refl s

theorem trimLoop_stable (encs : List GoString) (n : Nat) (s : GoString)
    (h : ∀ e ∈ encs, ¬ e <+: s) : trimLoop encs n s = s := by
  cases n with
  | zero => rfl
  | succ n =>
    have hnone : encs.find? (fun e => e.isPrefixOf s) = none := by
      simpa using h
    rw [trimLoop, hnone]

theorem trimLoop_fixed (encs : List GoString) (hne : ∀ e ∈ encs, e ≠ [])
    (n : Nat) (s : GoString) (hn : s.length ≤ n) :
    ∀ e ∈ encs, ¬ e <+: trimLoop encs n s := by
  induction n generalizing s with
  | zero =>
    intro e he hp
    have hs : s = [] := List.length_eq_zero.1 (Nat.le_zero.1 hn)
    subst hs
    exact hne e he (List.prefix_nil.1 hp)
  | succ n ih =>
    rw [trimLoop]
    split
    · rename_i e he
      have hmem : e ∈ encs := List.mem_of_find?_eq_some he
      have hpos : 0 < e.length := List.length_pos.2 (hne e hmem)
      have hp : e <+: s := by simpa using List.find?_some he
      have hle : e.length ≤ s.length := hp.length_le
      apply ih
      rw [List.length_drop]
      omega
    · rename_i hnone
      simpa using hnone

theorem spaceEncodings_ne_nil : ∀ e ∈ spaceEncodings, e ≠ [] := by decide

theorem spaceEncodings_reverse_ne_nil :
    ∀ e ∈ spaceEncodings.map List.reverse, e ≠ [] := by decide

theorem TrimLeftSpace_suffix (s : GoString) : TrimLeftSpace s <:+ s :=
  trimLoop_suffix _ _ _

theorem TrimRightSpace_starts (s : GoString) : TrimRightSpace s <+: s := by
  have h := trimLoop_suffix (spaceEncodings.map List.reverse) s.length s.reverse
  have h2 := List.reverse_prefix.2 h
  simpa [TrimRightSpace] using h2

theorem TrimSpace_within (s : GoString) : TrimSpace s <:+: s :=
  (TrimRightSpace_starts _).isInfix.trans (TrimLeftSpace_suffix s).isInfix

/-- A trimmed string starts with no white space rune. -/
theorem TrimSpace_no_space_first (s : GoString) :
    ∀ e ∈ spaceEncodings, ¬ e <+: TrimSpace s := by
  intro e he hp
  have h := trimLoop_fixed spaceEncodings spaceEncodings_ne_nil s.length s (Nat.le_refl _) e he
  exact h (hp.trans (TrimRightSpace_starts _))

/-- A trimmed string ends with no white space rune. -/
theorem TrimSpace_no_space_last (s : GoString) :
    ∀ e ∈ spaceEncodings, ¬ e <:+ TrimSpace s := by
  intro e he hp
  have h := trimLoop_fixed (spaceEncodings.map List.reverse) spaceEncodings_reverse_ne_nil
    (TrimLeftSpace s).length (TrimLeftSpace s).reverse (by simp) e.reverse
    (List.mem_map_of_mem _ he)
  apply h
  have h2 := List.reverse_prefix.2 hp
  simpa [TrimSpace, TrimRightSpace] using h2

theorem TrimSpace_eq_self (s : GoString) (h1 : ∀ e ∈ spaceEncodings, ¬ e <+: s)
    (h2 : ∀ e ∈ spaceEncodings, ¬ e <:+ s) : TrimSpace s = s := by
  have hl : TrimLeftSpace s = s := trimLoop_stable _ _ _ h1
  have hr : trimLoop (spaceEncodings.map List.reverse) s.length s.reverse = s.reverse := by
    apply trimLoop_stable
    intro e he hp
    obtain ⟨e0, he0, rfl⟩ := List.mem_map.1 he
    exact h2 e0 he0 (List.reverse_prefix.1 hp)
  rw [TrimSpace, hl, TrimRightSpace, hr, List.reverse_reverse]

theorem TrimSpace_idem (s : GoString) : TrimSpace (TrimSpace s) = TrimSpace s :=
  TrimSpace_eq_self _ (TrimSpace_no_space_first s) (TrimSpace_no_space_last s)

theorem TrimSpace_nil : TrimSpace [] = [] := by decide

/-! ## normalize -/

theorem mem_keepFirst (xs : List GoString) (x : GoString) : x ∈ keepFirst xs ↔ x ∈ xs := by
  induction xs with
  | nil => simp [keepFirst]
  | cons y ys ih =>
    simp only [keepFirst, List.mem_cons, List.mem_filter, ih, decide_eq_true_eq]
    constructor
    · rintro (h | ⟨h, -⟩)
      · exact Or.inl h
      · exact Or.inr h
    · rintro (h | h)
      · exact Or.inl h
      · by_cases hxy : x = y
        · exact Or.inl hxy
        · exact Or.inr ⟨h, hxy⟩

theorem keepFirst_nodup (xs : List GoString) : (keepFirst xs).Nodup := by
  induction xs with
  | nil => simp [keepFirst]
  | cons y ys ih =>
    rw [keepFirst, List.nodup_cons]
    refine ⟨?_, ih.filter _⟩
    simp [List.mem_filter]

theorem keepFirst_of_nodup (xs : List GoString) (h : xs.Nodup) : keepFirst xs = xs := by
  induction xs with
  | nil => rfl
  | cons y ys ih =>
    rw [List.nodup_cons] at h
    rw [keepFirst, ih h.2, List.filter_eq_self.2]
    intro a ha
    simp only [decide_eq_true_eq]
    rintro rfl
    exact h.1 ha

/-- The loop of `normalize` appends to `out` the first occurrences of the
trimmed non-empty lines not seen before. -/
theorem normalizeLoop_eq (lines seen out : List GoString) :
    normalizeLoop lines seen out =
      out ++ (keepFirst ((lines.map TrimSpace).filter (fun l => l ≠ []))).filter
        (fun l => l ∉ seen) := by
  induction lines generalizing seen out with
  | nil => simp [normalizeLoop, keepFirst]
  | cons l lines ih =>
    rw [normalizeLoop]
    simp only [List.map_cons]
    by_cases he : TrimSpace l = []
    · rw [if_pos (Or.inl he), ih, List.filter_cons_of_neg (by simp [he])]
    · rw [List.filter_cons_of_pos (by simp [he]), keepFirst]
      by_cases hs : TrimSpace l ∈ seen
      · rw [if_pos (Or.inr hs), ih, List.filter_cons_of_neg (by simp [hs]), List.filter_filter]
        congr 1
        apply List.filter_congr
        intro y _
        by_cases hy : y ∈ seen
        · simp [hy]
        · have : y ≠ TrimSpace l := fun e => hy (e ▸ hs)
          simp [hy, this]
      · rw [if_neg (by simp [he, hs]), ih, List.filter_cons_of_pos (by simp [hs]),
          List.filter_filter, List.append_assoc, List.singleton_append]
        congr 2
        apply List.filter_congr
        intro y _
        simp only [List.mem_cons, not_or, Bool.decide_and, decide_not, ne_eq]
        rw [Bool.and_comm]

theorem normalize_eq_normalizeSpec (s : GoString) : normalize s = normalizeSpec s := by
  rw [normalize, normalizeLoop_eq, normalizeSpec]
  simp

theorem mem_normalize (s e : GoString) :
    e ∈ normalize s ↔ e ≠ [] ∧ ∃ l ∈ Split s 0x0A, TrimSpace l = e := by
  rw [normalize_eq_normalizeSpec, normalizeSpec, mem_keepFirst]
  simp only [List.mem_filter, List.mem_map, decide_eq_true_eq]
  tauto

theorem normalize_nodup (s : GoString) : (normalize s).Nodup := by
  rw [normalize_eq_normalizeSpec]
  exact keepFirst_nodup _

theorem normalize_ne_nil (s e : GoString) (h : e ∈ normalize s) : e ≠ [] :=
  ((mem_normalize s e).1 h).1

theorem normalize_trimmed (s e : GoString) (h : e ∈ normalize s) : TrimSpace e = e := by
  obtain ⟨-, l, -, rfl⟩ := (mem_normalize s e).1 h
  exact TrimSpace_idem l

theorem normalize_no_newline (s e : GoString) (h : e ∈ normalize s) : 0x0A ∉ e := by
  obtain ⟨-, l, hl, rfl⟩ := (mem_normalize s e).1 h
  exact fun hm => not_mem_of_mem_Split 0x0A s l hl ((TrimSpace_within l).subset hm)

/-- A list of distinct, trimmed, non-empty lines without line feed is what
`normalize` gives back from its own serialization. -/
theorem normalize_Join (ls : List GoString) (hnd : ls.Nodup) (hne : ∀ e ∈ ls, e ≠ [])
    (htr : ∀ e ∈ ls, TrimSpace e = e) (hnl : ∀ e ∈ ls, 0x0A ∉ e) :
    normalize (Join ls [0x0A]) = ls := by
  by_cases h : ls = []
  · subst h
    decide
  · rw [normalize_eq_normalizeSpec, normalizeSpec, Split_Join 0x0A ls h hnl]
    have hmap : ls.map TrimSpace = ls := by
      conv_rhs => rw [← List.map_id ls]
      exact List.map_congr_left (fun e he => by simpa using htr e he)
    rw [hmap, List.filter_eq_self.2 (fun e he => by simpa using hne e he)]
    exact keepFirst_of_nodup ls hnd

theorem normalize_idem (x : GoString) :
    normalize (Join (normalize x) [0x0A]) = normalize x :=
  normalize_Join _ (normalize_nodup x) (normalize_ne_nil x) (normalize_trimmed x)
    (normalize_no_newline x)

/-! ## diff -/

theorem mem_foldl_cons (l acc : List GoString) (x : GoString) :
    x ∈ l.foldl (fun m o => o :: m) acc ↔ x ∈ l ∨ x ∈ acc := by
  induction l generalizing acc with
  | nil => simp
  | cons a l ih =>
    rw [List.foldl_cons, ih, List.mem_cons, List.mem_cons]
    tauto

theorem foldl_new (oldMap new m : List GoString) (a u : Nat) :
    new.foldl
      (fun (st : List GoString × Nat × Nat) n =>
        if n ∈ oldMap then (n :: st.1, st.2.1, st.2.2 + 1)
        else (n :: st.1, st.2.1 + 1, st.2.2))
      (m, a, u)
    = (new.foldl (fun m o => o :: m) m,
       a + new.countP (fun n => n ∉ oldMap),
       u + new.countP (fun n => n ∈ oldMap)) := by
  induction new generalizing m a u with
  | nil => simp
  | cons n new ih =>
    rw [List.foldl_cons]
    by_cases h : n ∈ oldMap
    · rw [if_pos h, ih, List.foldl_cons, List.countP_cons_of_neg _ _ (by simpa using h),
        List.countP_cons_of_pos _ _ (by simpa using h)]
      refine Prod.ext rfl (Prod.ext rfl ?_)
      show u + 1 + _ = u + (_ + 1)
      omega
    · rw [if_neg h, ih, List.foldl_cons, List.countP_cons_of_pos _ _ (by simpa using h),
        List.countP_cons_of_neg _ _ (by simpa using h)]
      refine Prod.ext rfl (Prod.ext ?_ rfl)
      show a + 1 + _ = a + (_ + 1)
      omega

theorem foldl_removed (newMap old : List GoString) (r : Nat) :
    old.foldl (fun removed o => if o ∈ newMap then removed else removed + 1) r
    = r + old.countP (fun o => o ∉ newMap) := by
  induction old generalizing r with
  | nil => simp
  | cons o old ih =>
    rw [List.foldl_cons]
    by_cases h : o ∈ newMap
    · rw [if_pos h, ih, List.countP_cons_of_neg _ _ (by simpa using h)]
    · rw [if_neg h, ih, List.countP_cons_of_pos _ _ (by simpa using h)]
      omega

/-- The three counters of `diff` as counts over the two lists. -/
theorem diff_eq (old new : List GoString) :
    diff old new =
      (new.countP (fun n => n ∉ old), new.countP (fun n => n ∈ old),
       old.countP (fun o => o ∉ new)) := by
  have hold : ∀ x, x ∈ old.foldl (fun m o => o :: m) [] ↔ x ∈ old := by
    intro x
    simp [mem_foldl_cons]
  have hnew : ∀ x, x ∈ new.foldl (fun m o => o :: m) [] ↔ x ∈ new := by
    intro x
    simp [mem_foldl_cons]
  simp only [diff, foldl_new, foldl_removed, Nat.zero_add, Prod.mk.injEq]
  refine ⟨?_, ?_, ?_⟩
  · exact List.countP_congr (fun x _ => by simp [hold x])
  · exact List.countP_congr (fun x _ => by simp [hold x])
  · exact List.countP_congr (fun x _ => by simp [hnew x])

theorem countP_mem_comm (old new : List GoString) (ho : old.Nodup) (hn : new.Nodup) :
    new.countP (fun n => n ∈ old) = old.countP (fun o => o ∈ new) := by
  rw [List.countP_eq_length_filter, List.countP_eq_length_filter]
  apply List.Perm.length_eq
  rw [List.perm_ext_iff_of_nodup (hn.filter _) (ho.filter _)]
  intro a
  simp only [List.mem_filter, decide_eq_true_eq]
  tauto

theorem countP_mem_add_not_mem (l m : List GoString) :
    l.countP (fun n => n ∉ m) + l.countP (fun n => n ∈ m) = l.length := by
  induction l with
  | nil => rfl
  | cons a l ih =>
    by_cases h : a ∈ m
    · rw [List.countP_cons_of_neg _ _ (by simpa using h),
        List.countP_cons_of_pos _ _ (by simpa using h), List.length_cons]
      omega
    · rw [List.countP_cons_of_pos _ _ (by simpa using h),
        List.countP_cons_of_neg _ _ (by simpa using h), List.length_cons]
      omega

theorem diff_self (X : List GoString) : diff X X = (0, X.length, 0) := by
  rw [diff_eq]
  simp only [Prod.mk.injEq, List.countP_eq_zero, List.countP_eq_length]
  simp

/-! ## main -/

theorem str_newline : str "\n" = [0x0A] := by decide

theorem main_eq_persist (w : World) (d : Detected) (lines : List GoString)
    (hh : w.help = false) (ha : w.numArgs ≠ 1) (hl : w.link ≠ [])
    (hacq : acquire w = .ok (d, lines)) : main w = persist w lines := by
  simp [main, hh, ha, hl, hacq]

theorem acquire_normalized (w : World) (d : Detected) (lines : List GoString)
    (hacq : acquire w = .ok (d, lines)) : ∃ x, lines = normalize x := by
  unfold acquire at hacq
  split_ifs at hacq
  · dsimp only at hacq
    split at hacq
    · simp only [Except.ok.injEq, Prod.mk.injEq] at hacq
      exact ⟨_, hacq.2.symm⟩
    · simp only [Except.ok.injEq, Prod.mk.injEq] at hacq
      exact ⟨_, hacq.2.symm⟩
  · split at hacq
    · exact absurd hacq (by simp)
    · simp only [Except.ok.injEq, Prod.mk.injEq] at hacq
      exact ⟨_, hacq.2.symm⟩

theorem main_write (w : World) (p c : GoString) (h : (main w).write = some (p, c)) :
    ∃ d lines, acquire w = .ok (d, lines) ∧ p = outFile w.link ∧ c = Join lines (str "\n") := by
  unfold main at h
  by_cases h1 : w.help = true ∨ w.numArgs = 1
  · rw [if_pos h1] at h
    exact absurd h (by simp)
  · rw [if_neg h1] at h
    by_cases h2 : w.link = []
    · rw [if_pos h2] at h
      exact absurd h (by simp)
    · rw [if_neg h2] at h
      split at h
      · exact absurd h (by simp)
      · rename_i d lines hacq
        refine ⟨d, lines, hacq, ?_⟩
        unfold persist at h
        dsimp only at h
        split_ifs at h <;>
          (simp only [Option.some.injEq, Prod.mk.injEq] at h
           exact ⟨h.1.symm, h.2.symm⟩)

theorem Join_normalize_no_trailing_newline (x : GoString) :
    ¬ str "\n" <:+ Join (normalize x) (str "\n") := by
  intro hs
  by_cases hne : normalize x = []
  · rw [hne] at hs
    exact absurd (List.suffix_nil.1 hs) (by decide)
  · have hlast := Join_suffix (str "\n") (normalize x) hne
    have hmem : (normalize x).getLast hne ∈ normalize x := List.getLast_mem hne
    have hnil := normalize_ne_nil x _ hmem
    have htr := normalize_trimmed x _ hmem
    have hlen : (str "\n").length ≤ ((normalize x).getLast hne).length := by
      have : 0 < ((normalize x).getLast hne).length := List.length_pos.2 hnil
      rw [str_newline]
      simpa using this
    have h2 : str "\n" <:+ (normalize x).getLast hne :=
      List.suffix_of_suffix_length_le hs hlast hlen
    rw [← htr] at h2
    exact TrimSpace_no_space_last _ (str "\n") (by decide) h2

/-! ## The claims about normalize, diff and the persist decision -/

/-- C1: `normalize s` is the list obtained by splitting `s` at line feeds,
trimming every piece, dropping the empty ones and keeping first
occurrences in order (`normalizeSpec`); it holds no empty entry, trimming
its entries changes nothing, and it has no two equal entries.  The example of the
specification evaluates to `["b", "a"]`. -/
theorem C1_normalize_contract :
    (∀ s : GoString,
      normalize s = normalizeSpec s
      ∧ [] ∉ normalize s
      ∧ (normalize s).map TrimSpace = normalize s
      ∧ (normalize s).Nodup)
    ∧ normalize (str "b\na\nb\n\n a \n") = [str "b", str "a"] := by
  refine ⟨fun s => ⟨normalize_eq_normalizeSpec s, ?_, ?_, normalize_nodup s⟩, by decide⟩
  · exact fun h => normalize_ne_nil s [] h rfl
  · conv_rhs => rw [← List.map_id (normalize s)]
    exact List.map_congr_left (fun e he => by simpa using normalize_trimmed s e he)

/-- C2: normalizing the serialization of a normalized list gives the list
back, also when it is empty; so `loadExisting` on the content of an
artifact written by `main` returns exactly the entries that were written. -/
theorem C2_normalize_idempotent :
    (∀ x : GoString, normalize (Join (normalize x) (str "\n")) = normalize x)
    ∧ normalize (Join [] (str "\n")) = []
    ∧ (∀ (w : World) (path content : GoString),
        (main w).write = some (path, content) →
        ∃ d lines, acquire w = .ok (d, lines) ∧ content = Join lines (str "\n")
          ∧ loadExisting (some content) = lines) := by
  refine ⟨fun x => ?_, by decide, ?_⟩
  · rw [str_newline]
    exact normalize_idem x
  · intro w path content h
    obtain ⟨d, lines, hacq, -, hc⟩ := main_write w path content h
    obtain ⟨x, hx⟩ := acquire_normalized w d lines hacq
    refine ⟨d, lines, hacq, hc, ?_⟩
    rw [hc, hx, loadExisting, str_newline]
    exact normalize_idem x

/-- Witness of C2: the run on the remote text "b\nc\nc\n" over the prior
artifact "a\nb" writes "b\nc", which loads as the entries acquired. -/
theorem C2_normalize_idempotent_witness :
    (main (remoteWorld (str "b\nc\nc\n") false (some (str "a\nb")))).write
        = some (outFile (str "http://h/s"), str "b\nc")
    ∧ ∃ d lines, acquire (remoteWorld (str "b\nc\nc\n") false (some (str "a\nb")))
          = .ok (d, lines) ∧ str "b\nc" = Join lines (str "\n")
        ∧ loadExisting (some (str "b\nc")) = lines :=
  ⟨by decide,
   C2_normalize_idempotent.2.2 (remoteWorld (str "b\nc\nc\n") false (some (str "a\nb")))
     (outFile (str "http://h/s")) (str "b\nc") (by decide)⟩

/-- C3: for duplicate-free `old` and `new`, the counters of `diff old new`
satisfy added + unchanged = |new| and removed + unchanged = |old|. -/
theorem C3_diff_counts (old new : List GoString) (ho : old.Nodup) (hn : new.Nodup) :
    (diff old new).1 + (diff old new).2.1 = new.length
    ∧ (diff old new).2.2 + (diff old new).2.1 = old.length := by
  rw [diff_eq]
  constructor
  · exact countP_mem_add_not_mem new old
  · have h := countP_mem_add_not_mem old new
    have hc := countP_mem_comm old new ho hn
    show List.countP (fun o => decide (o ∉ new)) old
      + List.countP (fun n => decide (n ∈ old)) new = old.length
    omega

/-- Witness of C3 at old = ["a","b"], new = ["b","c"]. -/
theorem C3_diff_counts_witness :
    (diff [str "a", str "b"] [str "b", str "c"]).1
        + (diff [str "a", str "b"] [str "b", str "c"]).2.1 = 2
    ∧ (diff [str "a", str "b"] [str "b", str "c"]).2.2
        + (diff [str "a", str "b"] [str "b", str "c"]).2.1 = 2 :=
  C3_diff_counts [str "a", str "b"] [str "b", str "c"] (by decide) (by decide)

/-- C4: `diff X X` is (added 0, unchanged |X|, removed 0) for every entry
list `X` (duplicate-free or not), and a run of `main` that acquires the
entries its artifact already holds reports "up to date", calls
`os.WriteFile` not at all and leaves every file as it was. -/
theorem C4_diff_self_skips :
    (∀ X : List GoString, diff X X = (0, X.length, 0))
    ∧ (∀ (w : World) (d : Detected) (X : List GoString),
        w.help = false → w.numArgs ≠ 1 → w.link ≠ [] →
        acquire w = .ok (d, X) →
        loadExisting (w.readFile (outFile w.link)) = X →
        main w = ⟨.upToDate, none, none⟩ ∧ filesAfter w (main w) = w.readFile) := by
  refine ⟨diff_self, ?_⟩
  intro w d X hh ha hl hacq hold
  have hm : main w = ⟨.upToDate, none, none⟩ := by
    rw [main_eq_persist w d X hh ha hl hacq, persist]
    simp [hold, diff_self]
  rw [hm]
  exact ⟨rfl, rfl⟩

/-- Witness of C4: the remote text "a\nb\n" over the prior artifact "a\nb". -/
theorem C4_diff_self_skips_witness :
    main (remoteWorld (str "a\nb\n") false (some (str "a\nb"))) = ⟨.upToDate, none, none⟩
    ∧ filesAfter (remoteWorld (str "a\nb\n") false (some (str "a\nb")))
        (main (remoteWorld (str "a\nb\n") false (some (str "a\nb"))))
      = (remoteWorld (str "a\nb\n") false (some (str "a\nb"))).readFile :=
  C4_diff_self_skips.2 (remoteWorld (str "a\nb\n") false (some (str "a\nb")))
    .plainURL [str "a", str "b"] rfl (by decide) (by decide) rfl rfl

/-- C5: with `old` the entries loaded from the artifact (none if it cannot
be read), the persist step of `main` calls `os.WriteFile` not at all when
`diff old new` has added = 0 and removed = 0, and otherwise calls it once,
on the artifact, with the new entries joined by "\n"; when that call
succeeds the artifact holds exactly this content.  For normalized entries
the content does not end in a line feed.  In the scenario of the
specification (prior "a\nb", plain text "b\nc\nc\n") the new entries are
["b","c"], the counters are (1, 1, 1) and the content written is "b\nc". -/
theorem C5_persist_decision :
    (∀ (w : World) (new : List GoString),
      ((diff (loadExisting (w.readFile (outFile w.link))) new).1 = 0
          ∧ (diff (loadExisting (w.readFile (outFile w.link))) new).2.2 = 0 →
        (persist w new).write = none ∧ filesAfter w (persist w new) = w.readFile)
      ∧ (¬ ((diff (loadExisting (w.readFile (outFile w.link))) new).1 = 0
          ∧ (diff (loadExisting (w.readFile (outFile w.link))) new).2.2 = 0) →
        (persist w new).write = some (outFile w.link, Join new (str "\n"))
        ∧ (w.writeErr = false →
            filesAfter w (persist w new) (outFile w.link) = some (Join new (str "\n")))))
    ∧ (∀ x : GoString, ¬ str "\n" <:+ Join (normalize x) (str "\n"))
    ∧ normalize (str "b\nc\nc\n") = [str "b", str "c"]
    ∧ diff (loadExisting (some (str "a\nb"))) [str "b", str "c"] = (1, 1, 1)
    ∧ main (remoteWorld (str "b\nc\nc\n") false (some (str "a\nb")))
        = ⟨.updated 1 1 1, some (outFile (str "http://h/s"), str "b\nc"), none⟩
    ∧ filesAfter (remoteWorld (str "b\nc\nc\n") false (some (str "a\nb")))
        (main (remoteWorld (str "b\nc\nc\n") false (some (str "a\nb"))))
        (outFile (str "http://h/s")) = some (str "b\nc") := by
  refine ⟨fun w new => ⟨?_, ?_⟩, Join_normalize_no_trailing_newline,
    by decide, by decide, by decide, by decide⟩
  · intro h
    have hp : persist w new = ⟨.upToDate, none, none⟩ := by
      rw [persist]
      simp [h]
    rw [hp]
    exact ⟨rfl, rfl⟩
  · intro h
    have hw : (persist w new).write = some (outFile w.link, Join new (str "\n")) := by
      rw [persist]
      simp only [if_neg h]
      split_ifs <;> rfl
    refine ⟨hw, fun he => ?_⟩
    rw [filesAfter, hw]
    simp [he]

/-- Witness of C5: both branches at concrete runs, the skip at new = ["a","b"]
over the prior artifact "a\nb", the write at new = ["b","c"]. -/
theorem C5_persist_decision_witness :
    ((persist (remoteWorld [] false (some (str "a\nb"))) [str "a", str "b"]).write = none
      ∧ filesAfter (remoteWorld [] false (some (str "a\nb")))
          (persist (remoteWorld [] false (some (str "a\nb"))) [str "a", str "b"])
        = (remoteWorld [] false (some (str "a\nb"))).readFile)
    ∧ ((persist (remoteWorld [] false (some (str "a\nb"))) [str "b", str "c"]).write
        = some (outFile (str "http://h/s"), Join [str "b", str "c"] (str "\n"))
      ∧ filesAfter (remoteWorld [] false (some (str "a\nb")))
          (persist (remoteWorld [] false (some (str "a\nb"))) [str "b", str "c"])
          (outFile (str "http://h/s")) = some (Join [str "b", str "c"] (str "\n"))) :=
  ⟨(C5_persist_decision.1 (remoteWorld [] false (some (str "a\nb")))
      [str "a", str "b"]).1 (by decide),
   ((C5_persist_decision.1 (remoteWorld [] false (some (str "a\nb")))
      [str "b", str "c"]).2 (by decide)).1,
   ((C5_persist_decision.1 (remoteWorld [] false (some (str "a\nb")))
      [str "b", str "c"]).2 (by decide)).2 rfl⟩

/-- C9: for duplicate-free lists, `diff` depends on the members of its
arguments only: if `old2` has the members of `old` and `new2` those of
`new`, the triple of counters is the same. -/
theorem C9_diff_order_insensitive (old old2 new new2 : List GoString)
    (ho : old.Nodup) (ho2 : old2.Nodup) (hn : new.Nodup) (hn2 : new2.Nodup)
    (hold : ∀ x, x ∈ old2 ↔ x ∈ old) (hnew : ∀ x, x ∈ new2 ↔ x ∈ new) :
    diff old2 new2 = diff old new := by
  have po : old2.Perm old := (List.perm_ext_iff_of_nodup ho2 ho).2 hold
  have pn : new2.Perm new := (List.perm_ext_iff_of_nodup hn2 hn).2 hnew
  rw [diff_eq, diff_eq]
  simp only [Prod.mk.injEq]
  refine ⟨?_, ?_, ?_⟩
  · exact pn.countP_congr (fun x _ => by simp [hold x])
  · exact pn.countP_congr (fun x _ => by simp [hold x])
  · exact po.countP_congr (fun x _ => by simp [hnew x])

/-- Witness of C9: ["b","a"] against ["c","b"] and ["a","b"] against ["b","c"]. -/
theorem C9_diff_order_insensitive_witness :
    diff [str "b", str "a"] [str "c", str "b"] = diff [str "a", str "b"] [str "b", str "c"] :=
  C9_diff_order_insensitive [str "a", str "b"] [str "b", str "a"] [str "b", str "c"]
    [str "c", str "b"] (by decide) (by decide) (by decide) (by decide)
    (fun x => by simp only [List.mem_cons, List.mem_nil_iff, or_false]; exact or_comm)
    (fun x => by simp only [List.mem_cons, List.mem_nil_iff, or_false]; exact or_comm)

/-! ## base64 -/

theorem and_63 (x : Nat) : x &&& 0x3F = x % 64 :=
  Nat.and_pow_two_sub_one_eq_mod x 6

theorem digit_lt (x : Nat) : x &&& 0x3F < 64 := by
  rw [and_63]
  omega

theorem or3 (a b c : Nat) (hb : b < 256) (hc : c < 256) :
    a <<< 16 ||| b <<< 8 ||| c = a * 65536 + b * 256 + c := by
  rw [Nat.shiftLeft_eq, Nat.shiftLeft_eq]
  have h1 := Nat.mul_add_lt_is_or (i := 16) (b := b * 2 ^ 8) (by omega) a
  have h2 := Nat.mul_add_lt_is_or (i := 8) (b := c) (by omega) (a * 2 ^ 8 + b)
  have e1 : a * 2 ^ 16 = 2 ^ 16 * a := Nat.mul_comm _ _
  rw [e1, ← h1]
  have e2 : 2 ^ 16 * a + b * 2 ^ 8 = 2 ^ 8 * (a * 2 ^ 8 + b) := by ring
  rw [e2, ← h2]
  ring

theorem or4 (a b c d : Nat) (hb : b < 64) (hc : c < 64) (hd : d < 64) :
    a <<< 18 ||| b <<< 12 ||| c <<< 6 ||| d = a * 262144 + b * 4096 + c * 64 + d := by
  rw [Nat.shiftLeft_eq, Nat.shiftLeft_eq, Nat.shiftLeft_eq]
  have h1 := Nat.mul_add_lt_is_or (i := 18) (b := b * 2 ^ 12) (by omega) a
  have h2 := Nat.mul_add_lt_is_or (i := 12) (b := c * 2 ^ 6) (by omega) (a * 2 ^ 6 + b)
  have h3 := Nat.mul_add_lt_is_or (i := 6) (b := d) (by omega) (a * 2 ^ 12 + b * 2 ^ 6 + c)
  have e1 : a * 2 ^ 18 = 2 ^ 18 * a := Nat.mul_comm _ _
  rw [e1, ← h1]
  have e2 : 2 ^ 18 * a + b * 2 ^ 12 = 2 ^ 12 * (a * 2 ^ 6 + b) := by ring
  rw [e2, ← h2]
  have e3 : 2 ^ 12 * (a * 2 ^ 6 + b) + c * 2 ^ 6 = 2 ^ 6 * (a * 2 ^ 12 + b * 2 ^ 6 + c) := by
    ring
  rw [e3, ← h3]
  ring

/-- The bytes a full quantum of four digits decodes to. -/
theorem quantumBytes_four (a b c d : Nat) (hb : b < 64) (hc : c < 64) (hd : d < 64) :
    quantumBytes [a, b, c, d] =
      [(a * 262144 + b * 4096 + c * 64 + d) / 65536 % 256,
       (a * 262144 + b * 4096 + c * 64 + d) / 256 % 256,
       (a * 262144 + b * 4096 + c * 64 + d) % 256] := by
  simp only [quantumBytes, List.getD_cons_zero, List.getD_cons_succ, List.length_cons,
    List.length_nil, Nat.shiftRight_eq_div_pow]
  rw [or4 a b c d hb hc hd]
  simp

theorem quantumBytes_three (a b c : Nat) (hb : b < 64) (hc : c < 64) :
    quantumBytes [a, b, c] =
      [(a * 262144 + b * 4096 + c * 64) / 65536 % 256,
       (a * 262144 + b * 4096 + c * 64) / 256 % 256] := by
  simp only [quantumBytes, List.getD_cons_zero, List.getD_cons_succ, List.getD_nil,
    List.length_cons, List.length_nil, Nat.shiftRight_eq_div_pow]
  rw [or4 a b c 0 hb hc (by omega)]
  simp

theorem quantumBytes_two (a b : Nat) (hb : b < 64) :
    quantumBytes [a, b] = [(a * 262144 + b * 4096) / 65536 % 256] := by
  simp only [quantumBytes, List.getD_cons_zero, List.getD_cons_succ, List.getD_nil,
    List.length_cons, List.length_nil, Nat.shiftRight_eq_div_pow]
  rw [or4 a b 0 0 hb (by omega) (by omega)]
  simp

set_option maxRecDepth 100000 in
theorem std_decode_encode :
    ∀ v < 64, decodeMap StdEncoding (StdEncoding.encode.getD v 0) = some v := by
  decide

set_option maxRecDepth 100000 in
theorem url_to_std :
    ∀ v < 64,
      (fun c => if c = 0x5F then 0x2F else c)
        ((fun c => if c = 0x2D then 0x2B else c) (URLEncoding.encode.getD v 0))
      = StdEncoding.encode.getD v 0 := by
  decide

set_option maxRecDepth 100000 in
theorem url_plain : ∀ v < 64, plainByte (URLEncoding.encode.getD v 0) := by
  decide

theorem spaceEncodings_not_plain : ∀ e ∈ spaceEncodings, ∃ c ∈ e, ¬ plainByte c := by
  decide

theorem TrimSpace_of_plain (s : GoString) (h : ∀ c ∈ s, plainByte c) : TrimSpace s = s := by
  apply TrimSpace_eq_self
  · intro e he hp
    obtain ⟨c, hc, hn⟩ := spaceEncodings_not_plain e he
    exact hn (h c (hp.subset hc))
  · intro e he hp
    obtain ⟨c, hc, hn⟩ := spaceEncodings_not_plain e he
    exact hn (h c (hp.subset hc))

/-- Every byte of an encoding is a character of the alphabet or the
padding character. -/
theorem EncodeToString_forall (enc : Encoding) (P : Nat → Prop)
    (hdig : ∀ v < 64, P (enc.encode.getD v 0)) (hpad : ∀ p, enc.padChar = some p → P p)
    (t : GoString) : ∀ c ∈ EncodeToString enc t, P c := by
  have hp : ∀ n, ∀ c ∈ padding enc n, P c := by
    intro n c hc
    unfold padding at hc
    split at hc
    · rename_i p hpc
      rw [List.eq_of_mem_replicate hc]
      exact hpad p hpc
    · simp at hc
  induction t using EncodeToString.induct enc with
  | case1 a b c rest ih =>
    intro x hx
    rw [EncodeToString] at hx
    simp only [List.mem_append, List.mem_cons, List.mem_nil_iff, or_false] at hx
    rcases hx with (rfl | rfl | rfl | rfl) | hx
    · exact hdig _ (digit_lt _)
    · exact hdig _ (digit_lt _)
    · exact hdig _ (digit_lt _)
    · exact hdig _ (digit_lt _)
    · exact ih x hx
  | case2 a b =>
    intro x hx
    rw [EncodeToString] at hx
    simp only [List.mem_append, List.mem_cons, List.mem_nil_iff, or_false] at hx
    rcases hx with (rfl | rfl | rfl) | hx
    · exact hdig _ (digit_lt _)
    · exact hdig _ (digit_lt _)
    · exact hdig _ (digit_lt _)
    · exact hp 1 x hx
  | case3 a =>
    intro x hx
    rw [EncodeToString] at hx
    simp only [List.mem_append, List.mem_cons, List.mem_nil_iff, or_false] at hx
    rcases hx with (rfl | rfl) | hx
    · exact hdig _ (digit_lt _)
    · exact hdig _ (digit_lt _)
    · exact hp 2 x hx
  | case4 =>
    intro x hx
    simp [EncodeToString] at hx

/-- Mapping the characters of one alphabet to those of another turns the
encoding over the first into the encoding over the second. -/
theorem map_EncodeToString (e1 e2 : Encoding) (f : Nat → Nat)
    (hdig : ∀ v < 64, f (e1.encode.getD v 0) = e2.encode.getD v 0)
    (hpad : ∀ n, (padding e1 n).map f = padding e2 n) (t : GoString) :
    (EncodeToString e1 t).map f = EncodeToString e2 t := by
  induction t using EncodeToString.induct e1 with
  | case1 a b c rest ih =>
    rw [EncodeToString, EncodeToString]
    simp only [List.map_append, List.map_cons, List.map_nil, ih, hdig _ (digit_lt _)]
  | case2 a b =>
    rw [EncodeToString, EncodeToString]
    simp only [List.map_append, List.map_cons, List.map_nil, hpad, hdig _ (digit_lt _)]
  | case3 a =>
    rw [EncodeToString, EncodeToString]
    simp only [List.map_append, List.map_cons, List.map_nil, hpad, hdig _ (digit_lt _)]
  | case4 => simp [EncodeToString]

theorem padLoop_of_mod (n : Nat) (s : GoString) (h : s.length % 4 = 0) : padLoop n s = s := by
  cases n with
  | zero => rfl
  | succ n => rw [padLoop, if_neg (by simpa using h)]

theorem padLoop_append (n : Nat) (q s : GoString) (hq : q.length % 4 = 0) :
    padLoop n (q ++ s) = q ++ padLoop n s := by
  induction n generalizing s with
  | zero => rfl
  | succ n ih =>
    have hlen : (q ++ s).length % 4 = s.length % 4 := by
      rw [List.length_append]
      omega
    rw [padLoop, padLoop, hlen]
    split_ifs
    · rw [List.append_assoc, ih]
    · rfl

/-- Three rounds of the padding loop always reach a length that is a
multiple of four. -/
theorem padLoop_length (s : GoString) : (padLoop 3 s).length % 4 = 0 := by
  simp only [padLoop]
  split_ifs <;> simp only [List.length_append, List.length_singleton] at * <;> omega

theorem padLoop_raw (t : GoString) :
    padLoop 3 (EncodeToString RawStdEncoding t) = EncodeToString StdEncoding t := by
  induction t using EncodeToString.induct RawStdEncoding with
  | case1 a b c rest ih =>
    rw [EncodeToString, EncodeToString, padLoop_append _ _ _ (by simp), ih]
    rfl
  | case2 a b =>
    simp only [EncodeToString, padding, RawStdEncoding, StdEncoding, padLoop, List.append_nil,
      List.length_cons, List.length_nil, List.cons_append, List.nil_append, List.replicate]
    simp
  | case3 a =>
    simp only [EncodeToString, padding, RawStdEncoding, StdEncoding, padLoop, List.append_nil,
      List.length_cons, List.length_nil, List.cons_append, List.nil_append, List.replicate]
    simp
  | case4 => rfl

theorem EncodeToString_std_length (t : GoString) :
    (EncodeToString StdEncoding t).length % 4 = 0 := by
  induction t using EncodeToString.induct StdEncoding with
  | case1 a b c rest ih =>
    rw [EncodeToString, List.length_append]
    simp only [List.length_cons, List.length_nil]
    omega
  | case2 a b => simp [EncodeToString, padding, StdEncoding]
  | case3 a => simp [EncodeToString, padding, StdEncoding]
  | case4 => rfl

theorem decodeLoop_digit (v : Nat) (hv : v < 64) (dbuf : List Nat) (rest : GoString) :
    decodeLoop StdEncoding dbuf (StdEncoding.encode.getD v 0 :: rest) =
      if dbuf.length = 3 then
        (decodeLoop StdEncoding [] rest).map (fun tl => quantumBytes (dbuf ++ [v]) ++ tl)
      else decodeLoop StdEncoding (dbuf ++ [v]) rest := by
  rw [decodeLoop, std_decode_encode v hv]

/-- Decoding the standard encoding of a byte string gives the string. -/
theorem DecodeString_EncodeToString (t : GoString) (ht : IsBytes t) :
    DecodeString StdEncoding (EncodeToString StdEncoding t) = some t := by
  unfold DecodeString
  induction t using EncodeToString.induct StdEncoding with
  | case1 a b c rest ih =>
    have ha : a < 256 := ht a (by simp)
    have hb : b < 256 := ht b (by simp)
    have hc : c < 256 := ht c (by simp)
    have hrest : IsBytes rest := fun x hx => ht x (by simp [hx])
    rw [EncodeToString]
    simp only [List.cons_append, List.nil_append]
    rw [decodeLoop_digit _ (digit_lt _), if_neg (by simp), decodeLoop_digit _ (digit_lt _),
      if_neg (by simp), decodeLoop_digit _ (digit_lt _), if_neg (by simp),
      decodeLoop_digit _ (digit_lt _), if_pos (by simp), ih hrest]
    simp only [List.nil_append, List.cons_append, Option.map_some']
    rw [quantumBytes_four _ _ _ _ (digit_lt _) (digit_lt _) (digit_lt _), or3 a b c hb hc]
    simp only [and_63, Nat.shiftRight_eq_div_pow]
    have e0 : (a * 65536 + b * 256 + c) / 2 ^ 18 % 64 * 262144
        + (a * 65536 + b * 256 + c) / 2 ^ 12 % 64 * 4096
        + (a * 65536 + b * 256 + c) / 2 ^ 6 % 64 * 64
        + (a * 65536 + b * 256 + c) % 64 = a * 65536 + b * 256 + c := by
      norm_num
      omega
    rw [e0]
    have e1 : (a * 65536 + b * 256 + c) / 65536 % 256 = a := by omega
    have e2 : (a * 65536 + b * 256 + c) / 256 % 256 = b := by omega
    have e3 : (a * 65536 + b * 256 + c) % 256 = c := by omega
    rw [e1, e2, e3]
    rfl
  | case2 a b =>
    have ha : a < 256 := ht a (by simp)
    have hb : b < 256 := ht b (by simp)
    rw [EncodeToString]
    have hpad : padding StdEncoding 1 = [0x3D] := rfl
    rw [hpad]
    simp only [List.cons_append, List.nil_append]
    rw [decodeLoop_digit _ (digit_lt _), if_neg (by simp), decodeLoop_digit _ (digit_lt _),
      if_neg (by simp), decodeLoop_digit _ (digit_lt _), if_neg (by simp)]
    simp only [List.nil_append, List.cons_append]
    have hq : decodeLoop StdEncoding
        [(a <<< 16 ||| b <<< 8) >>> 18 &&& 0x3F, (a <<< 16 ||| b <<< 8) >>> 12 &&& 0x3F,
          (a <<< 16 ||| b <<< 8) >>> 6 &&& 0x3F] [0x3D]
        = some (quantumBytes
          [(a <<< 16 ||| b <<< 8) >>> 18 &&& 0x3F, (a <<< 16 ||| b <<< 8) >>> 12 &&& 0x3F,
            (a <<< 16 ||| b <<< 8) >>> 6 &&& 0x3F]) := by
      rw [decodeLoop]
      have hm : decodeMap StdEncoding 0x3D = none := by decide
      rw [hm]
      simp [StdEncoding, skipNewlines]
    rw [hq, quantumBytes_three _ _ _ (digit_lt _) (digit_lt _)]
    have hv : a <<< 16 ||| b <<< 8 = a * 65536 + b * 256 := by
      have := or3 a b 0 hb (by omega)
      simpa using this
    rw [hv]
    simp only [and_63, Nat.shiftRight_eq_div_pow]
    have e0 : (a * 65536 + b * 256) / 2 ^ 18 % 64 * 262144
        + (a * 65536 + b * 256) / 2 ^ 12 % 64 * 4096
        + (a * 65536 + b * 256) / 2 ^ 6 % 64 * 64 = a * 65536 + b * 256 := by
      norm_num
      omega
    rw [e0]
    have e1 : (a * 65536 + b * 256) / 65536 % 256 = a := by omega
    have e2 : (a * 65536 + b * 256) / 256 % 256 = b := by omega
    rw [e1, e2]
  | case3 a =>
    have ha : a < 256 := ht a (by simp)
    rw [EncodeToString]
    have hpad : padding StdEncoding 2 = [0x3D, 0x3D] := rfl
    rw [hpad]
    simp only [List.cons_append, List.nil_append]
    rw [decodeLoop_digit _ (digit_lt _), if_neg (by simp), decodeLoop_digit _ (digit_lt _),
      if_neg (by simp)]
    simp only [List.nil_append, List.cons_append]
    have hq : decodeLoop StdEncoding
        [(a <<< 16) >>> 18 &&& 0x3F, (a <<< 16) >>> 12 &&& 0x3F] [0x3D, 0x3D]
        = some (quantumBytes [(a <<< 16) >>> 18 &&& 0x3F, (a <<< 16) >>> 12 &&& 0x3F]) := by
      rw [decodeLoop]
      have hm : decodeMap StdEncoding 0x3D = none := by decide
      rw [hm]
      simp [StdEncoding, skipNewlines]
    rw [hq, quantumBytes_two _ _ (digit_lt _)]
    simp only [and_63, Nat.shiftRight_eq_div_pow, Nat.shiftLeft_eq]
    have e0 : a * 2 ^ 16 / 2 ^ 18 % 64 * 262144 + a * 2 ^ 16 / 2 ^ 12 % 64 * 4096
        = a * 65536 := by
      norm_num
      omega
    rw [e0]
    have e1 : a * 65536 / 65536 % 256 = a := by omega
    rw [e1]
  | case4 => rfl

theorem padding_url_map (n : Nat) :
    (padding URLEncoding n).map
      (fun c => (fun c => if c = 0x5F then 0x2F else c)
        ((fun c => if c = 0x2D then 0x2B else c) c)) = padding StdEncoding n := by
  simp [padding, URLEncoding, StdEncoding]

theorem decodeBase64_of_plain (s : GoString) (h : ∀ c ∈ s, plainByte c) :
    decodeBase64 s
      = DecodeString StdEncoding (padLoop 3 (s.map
          (fun c => (fun c => if c = 0x5F then 0x2F else c)
            ((fun c => if c = 0x2D then 0x2B else c) c)))) := by
  simp only [decodeBase64, TrimSpace_of_plain s h, ReplaceAll, List.map_map]
  rfl

/-! ## The claim about decodeBase64 -/

/-- C6: for every byte string `t`, `decodeBase64` applied to the URL-safe
base64 encoding of `t`, with padding (`base64.URLEncoding`) or without
(`base64.RawURLEncoding`), returns `t` and no error. -/
theorem C6_base64_round_trip (t : GoString) (ht : IsBytes t) :
    decodeBase64 (EncodeToString URLEncoding t) = some t
    ∧ decodeBase64 (EncodeToString RawURLEncoding t) = some t := by
  constructor
  · rw [decodeBase64_of_plain _
      (EncodeToString_forall URLEncoding plainByte url_plain
        (fun p hp => by
          have : p = 0x3D := by simpa [URLEncoding] using hp.symm
          subst this
          decide) t),
      map_EncodeToString URLEncoding StdEncoding _ url_to_std padding_url_map,
      padLoop_of_mod _ _ (EncodeToString_std_length t)]
    exact DecodeString_EncodeToString t ht
  · rw [decodeBase64_of_plain _
      (EncodeToString_forall RawURLEncoding plainByte url_plain
        (fun p hp => by simp [RawURLEncoding] at hp) t),
      map_EncodeToString RawURLEncoding RawStdEncoding _ url_to_std
        (fun n => by simp [padding, RawURLEncoding, RawStdEncoding]),
      padLoop_raw]
    exact DecodeString_EncodeToString t ht

/-- Witness of C6: the text "x\ny\n", whose encodings are "eAp5Cg==" and
"eAp5Cg". -/
theorem C6_base64_round_trip_witness :
    EncodeToString URLEncoding (str "x\ny\n") = str "eAp5Cg=="
    ∧ EncodeToString RawURLEncoding (str "x\ny\n") = str "eAp5Cg"
    ∧ decodeBase64 (EncodeToString URLEncoding (str "x\ny\n")) = some (str "x\ny\n")
    ∧ decodeBase64 (EncodeToString RawURLEncoding (str "x\ny\n")) = some (str "x\ny\n") :=
  ⟨by decide, by decide,
    C6_base64_round_trip (str "x\ny\n") (by unfold IsBytes; decide)⟩

/-! ## sanitizeFileName -/

theorem replace_byte (c : Nat) :
    (match replacerPairs.find? (fun p => p.1 = c) with
      | some p => p.2
      | none => c)
    = if c ∈ placeholderBytes then 0x5F else c := by
  by_cases h : c ∈ placeholderBytes
  · rw [if_pos h]
    simp only [placeholderBytes, List.mem_cons, List.mem_nil_iff, or_false] at h
    rcases h with rfl | rfl | rfl | rfl | rfl | rfl | rfl | rfl | rfl | rfl | rfl | rfl <;> rfl
  · rw [if_neg h]
    simp only [placeholderBytes, List.mem_cons, List.mem_nil_iff, or_false, not_or] at h
    have hnone : replacerPairs.find? (fun p => p.1 = c) = none := by
      simp only [replacerPairs, List.find?_eq_none, List.mem_cons, List.mem_nil_iff, or_false,
        decide_eq_true_eq]
      rintro p (rfl | rfl | rfl | rfl | rfl | rfl | rfl | rfl | rfl | rfl | rfl) <;>
        simp only <;> omega
    rw [hnone]

theorem sanitizeFileName_eq (link : GoString) :
    sanitizeFileName link
      = (stripScheme link).map (fun c => if c ∈ placeholderBytes then 0x5F else c) := by
  simp only [sanitizeFileName, Replace, stripScheme]
  exact List.map_congr_left (fun c _ => replace_byte c)

theorem placeholder_eq_iff (x y : Nat) :
    ((if x ∈ placeholderBytes then 0x5F else x) = (if y ∈ placeholderBytes then 0x5F else y))
      ↔ (x = y ∨ (x ∈ placeholderBytes ∧ y ∈ placeholderBytes)) := by
  have h95 : 0x5F ∈ placeholderBytes := by decide
  by_cases hx : x ∈ placeholderBytes <;> by_cases hy : y ∈ placeholderBytes
  · simp [hx, hy]
  · rw [if_pos hx, if_neg hy]
    constructor
    · intro h
      exact absurd (h ▸ h95) hy
    · rintro (h | h)
      · exact absurd (h ▸ hx) hy
      · exact absurd h.2 hy
  · rw [if_neg hx, if_pos hy]
    constructor
    · intro h
      exact absurd (h ▸ h95) hx
    · rintro (h | h)
      · exact absurd (h ▸ hy) hx
      · exact absurd h.1 hx
  · rw [if_neg hx, if_neg hy]
    constructor
    · exact fun h => Or.inl h
    · rintro (h | h)
      · exact h
      · exact absurd h.1 hx

theorem map_eq_map_iff_forall₂ (f : Nat → Nat) (xs ys : List Nat) :
    xs.map f = ys.map f ↔ List.Forall₂ (fun x y => f x = f y) xs ys := by
  induction xs generalizing ys with
  | nil => cases ys <;> simp
  | cons x xs ih => cases ys <;> simp [ih]

/-! ## The claims about classification, acquisition failure and key derivation -/

/-- C7, as stated, fails at a local file that holds "eAp5Cg==":
`decodeBase64` succeeds on this payload (it decodes to "x\ny\n"), yet the
entries `main` goes on to diff are those of the raw text, not those of the
decoded text. -/
theorem C7_local_file_not_decoded :
    decodeBase64 (str "eAp5Cg==") = some (str "x\ny\n")
    ∧ acquire (fileWorld (str "eAp5Cg==") none)
        = .ok (.localFile, normalize (str "eAp5Cg=="))
    ∧ normalize (str "eAp5Cg==") ≠ normalize (str "x\ny\n") :=
  ⟨by decide, rfl, by decide⟩

/-- C7, amended: when the acquisition succeeds there are three outcomes and
no other.  For a remote source the entries are `normalize decoded` when
`decodeBase64` succeeds on the body and `normalize body` when it rejects
it; for a local file the entries are `normalize content`, without any
attempt to decode. -/
theorem C7_classification (w : World) (d : Detected) (lines : List GoString)
    (h : acquire w = .ok (d, lines)) :
    (isURL (w.parse w.link) = true ∧ d = .base64URL
      ∧ ∃ decoded, decodeBase64 w.body = some decoded ∧ lines = normalize decoded)
    ∨ (isURL (w.parse w.link) = true ∧ d = .plainURL
      ∧ decodeBase64 w.body = none ∧ lines = normalize w.body)
    ∨ (isURL (w.parse w.link) = false ∧ d = .localFile
      ∧ ∃ content, w.readFile w.link = some content ∧ lines = normalize content) := by
  unfold acquire at h
  split_ifs at h with h1 h2 h3 h4 h5 h6
  · dsimp only at h
    split at h
    · rename_i hdec
      simp only [Except.ok.injEq, Prod.mk.injEq] at h
      exact Or.inr (Or.inl ⟨h1, h.1.symm, hdec, h.2.symm⟩)
    · rename_i decoded hdec
      simp only [Except.ok.injEq, Prod.mk.injEq] at h
      exact Or.inl ⟨h1, h.1.symm, decoded, hdec, h.2.symm⟩
  · split at h
    · exact absurd h (by simp)
    · rename_i content hc
      simp only [Except.ok.injEq, Prod.mk.injEq] at h
      exact Or.inr (Or.inr ⟨by simpa using h1, h.1.symm, content, hc, h.2.symm⟩)

/-- Witness of C7 (amended): a remote body "eAp5Cg==" is decoded. -/
theorem C7_classification_witness :
    (isURL ((remoteWorld (str "eAp5Cg==") false none).parse
        (remoteWorld (str "eAp5Cg==") false none).link) = true
      ∧ Detected.base64URL = .base64URL
      ∧ ∃ decoded, decodeBase64 (remoteWorld (str "eAp5Cg==") false none).body = some decoded
          ∧ [str "x", str "y"] = normalize decoded)
    ∨ (isURL ((remoteWorld (str "eAp5Cg==") false none).parse
        (remoteWorld (str "eAp5Cg==") false none).link) = true
      ∧ Detected.base64URL = .plainURL
      ∧ decodeBase64 (remoteWorld (str "eAp5Cg==") false none).body = none
      ∧ [str "x", str "y"] = normalize (remoteWorld (str "eAp5Cg==") false none).body)
    ∨ (isURL ((remoteWorld (str "eAp5Cg==") false none).parse
        (remoteWorld (str "eAp5Cg==") false none).link) = false
      ∧ Detected.base64URL = .localFile
      ∧ ∃ content, (remoteWorld (str "eAp5Cg==") false none).readFile
            (remoteWorld (str "eAp5Cg==") false none).link = some content
          ∧ [str "x", str "y"] = normalize content) :=
  C7_classification (remoteWorld (str "eAp5Cg==") false none) .base64URL [str "x", str "y"] rfl

/-- A run whose acquisition ends in one of the errors the program checks
calls `os.WriteFile` not at all and leaves every file as it was. -/
theorem acquire_error_no_write (w : World) (r : Report) (h : acquire w = .error r) :
    (main w).write = none ∧ filesAfter w (main w) = w.readFile := by
  have hw : (main w).write = none := by
    unfold main
    split_ifs
    · rfl
    · rfl
    · rw [h]
  refine ⟨hw, ?_⟩
  funext path
  rw [filesAfter, hw]

/-- C8, the failing run: the request is answered with status 200, reading
the body fails after the bytes "a\n" have arrived, and the artifact holds
"a\nb".  The program discards the read error, takes the partial body as the
new text and overwrites the artifact with "a". -/
theorem C8_body_read_error_overwrites :
    (remoteWorld (str "a\n") true (some (str "a\nb"))).bodyErr = true
    ∧ (remoteWorld (str "a\n") true (some (str "a\nb"))).readFile (outFile (str "http://h/s"))
        = some (str "a\nb")
    ∧ main (remoteWorld (str "a\n") true (some (str "a\nb")))
        = ⟨.updated 0 1 1, some (outFile (str "http://h/s"), str "a"), none⟩
    ∧ filesAfter (remoteWorld (str "a\n") true (some (str "a\nb")))
        (main (remoteWorld (str "a\n") true (some (str "a\nb")))) (outFile (str "http://h/s"))
        = some (str "a") :=
  ⟨rfl, by decide, by decide, by decide⟩

/-- C10, as stated, fails: the distinct sources "http://h/a?b" and
"http://h/a/b" get the same artifact name. -/
theorem C10_sanitize_collision :
    str "http://h/a?b" ≠ str "http://h/a/b"
    ∧ sanitizeFileName (str "http://h/a?b") = sanitizeFileName (str "http://h/a/b")
    ∧ outFile (str "http://h/a?b") = outFile (str "http://h/a/b") :=
  ⟨by decide, by decide, by decide⟩

/-- C10, amended: two sources get the same name exactly when, after the
removal of a leading "http://" and then of a leading "https://", they have
the same length and at every position either carry the same byte or each
carry one of the bytes `/ \ : * ? " < > | & = _`. -/
theorem C10_sanitize_eq_iff (a b : GoString) :
    sanitizeFileName a = sanitizeFileName b ↔
      List.Forall₂ (fun x y => x = y ∨ (x ∈ placeholderBytes ∧ y ∈ placeholderBytes))
        (stripScheme a) (stripScheme b) := by
  rw [sanitizeFileName_eq, sanitizeFileName_eq, map_eq_map_iff_forall₂]
  simp only [placeholder_eq_iff]

end SubDecode
